import Mathlib

/-!
Shallow embedding of the semantic-search core of the `semtools` repository
(`src/search/mod.rs` and `src/workspace/store.rs`), together with proofs about
it.  Machine integers are modelled as `Nat`/`Int` with explicit wrapping,
embedding vectors and distances as lists of rationals.  External collaborators
(the embedding model, the simsimd cosine kernel, the Qdrant Edge shard
operations, the filesystem) are modelled from the specification's descriptions
of their interfaces; each such definition says so in its doc comment.
-/

namespace Semtools

/-- Bytes of the UTF-8 encoding of one Unicode scalar value, as natural
numbers; mirrors Rust `str::as_bytes` at the level of a single character. -/
def utf8EncodeChar (n : Nat) : List Nat :=
  if n < 128 then [n]
  else if n < 2048 then [192 + n / 64, 128 + n % 64]
  else if n < 65536 then [224 + n / 4096, 128 + n / 64 % 64, 128 + n % 64]
  else [240 + n / 262144, 128 + n / 4096 % 64, 128 + n / 64 % 64, 128 + n % 64]

/-- UTF-8 bytes of a string, mirroring Rust `String::as_bytes`. -/
def utf8Bytes (s : String) : List Nat :=
  s.data.flatMap (fun c => utf8EncodeChar c.toNat)

/-- FNV-1a 64-bit hash over a byte list, translated from `fnv1a_hash` in
`src/workspace/store.rs`; `% 2 ^ 64` models `u64` wrapping multiplication. -/
def fnv1a_hash (bytes : List Nat) : Nat :=
  bytes.foldl
    (fun hash byte => ((hash ^^^ byte) * 1099511628211) % 18446744073709551616)
    14695981039346656037

/-- Little-endian bytes of an `i32`, mirroring Rust `i32::to_le_bytes`
(two's complement, four bytes). -/
def i32LeBytes (n : Int) : List Nat :=
  let m := (n.emod 4294967296).toNat
  [m % 256, m / 256 % 256, m / 65536 % 256, m / 16777216 % 256]

/-- Fuel-indexed worker for `chunksOf`; the fuel only makes the recursion
structural and is irrelevant as soon as it bounds the list length. -/
def chunksFuel (n : Nat) : Nat → List α → List (List α)
  | 0, _ => []
  | fuel + 1, l =>
    if l.isEmpty ∨ n = 0 then []
    else l.take n :: chunksFuel n fuel (l.drop n)

/-- Split a list into consecutive chunks of at most `n` elements, mirroring
Rust `slice::chunks` (the store always uses `n = 1000`). -/
def chunksOf (n : Nat) (l : List α) : List (List α) :=
  chunksFuel n l.length l

/-- `listSlice l a b` is Rust `l[a..b]` on list indices (half-open). -/
def listSlice (l : List α) (a b : Nat) : List α :=
  (l.drop a).take (b - a)

/-- Strip one trailing carriage return, as Rust `str::lines` does on a line
that was terminated by a newline. -/
def stripCR (l : List Char) : List Char :=
  if l.getLast? = some '\r' then l.dropLast else l

/-- Worker for `rustLinesChar`; `acc` is the reversed current record.  A record
terminated by a newline has a carriage return before the newline stripped; a
final unterminated record is kept as read; a trailing newline produces no
final empty record. -/
def linesAux : List Char → List Char → List (List Char)
  | [], acc => if acc.isEmpty then [] else [acc.reverse]
  | c :: rest, acc =>
    if c = '\n' then stripCR acc.reverse :: linesAux rest []
    else linesAux rest (c :: acc)

/-- Line records of a character list, translated from Rust `str::lines`. -/
def rustLinesChar (cs : List Char) : List (List Char) :=
  linesAux cs []

/-- Rust `str::lines`, lifted to `String`. -/
def rustLines (s : String) : List String :=
  (rustLinesChar s.data).map (fun l => ⟨l⟩)

/-- Insert `x` into `acc` after every element `y` with `le y x`; used by
`sortStable`.  Because insertions happen in input order, elements the
comparator ties keep their original relative order. -/
def insertSorted (le : α → α → Bool) (x : α) : List α → List α
  | [] => [x]
  | y :: ys => if le y x then y :: insertSorted le x ys else x :: y :: ys

/-- A stable sort by the Boolean comparator `le`.  Rust `sort_by` is a stable
sort, and for a total comparator the stable sort of a list is unique, so this
models the sorts in `search_documents` and `Store::search_line_embeddings`
exactly. -/
def sortStable (le : α → α → Bool) (l : List α) : List α :=
  l.foldl (fun acc x => insertSorted le x acc) []

/-- In-memory document (`Document` in `src/search/mod.rs`): one file's lines
and their embeddings. -/
structure Document where
  filename : String
  lines : List String
  embeddings : List (List ℚ)
  deriving DecidableEq

/-- `SearchConfig` in `src/search/mod.rs`. -/
structure SearchConfig where
  n_lines : Nat
  top_k : Nat
  max_distance : Option ℚ
  ignore_case : Bool

/-- `SearchResult` in `src/search/mod.rs`; `start`/`end` are the half-open
context-window bounds and `match_line` the matching line index. -/
structure SearchResult where
  filename : String
  lines : List String
  start : Nat
  «end» : Nat
  match_line : Nat
  distance : ℚ
  deriving DecidableEq

/-- Translated from `create_document_from_content` in `src/search/mod.rs`.
The embedding model is external (model2vec) and is passed as `embed`;
modelled from the spec: `encode_with_args` embeds each line, preserving order
and length (spec section 4.1), hence `List.map embed`.  Lowercasing models
Rust `to_lowercase` at the granularity the claims need (one string per
line). -/
def create_document_from_content (embed : String → List ℚ) (filename : String)
    (content : String) (ignore_case : Bool) : Option Document :=
  let lines := rustLines content
  if lines.isEmpty then none
  else
    let lines_for_embedding := if ignore_case then lines.map String.toLower else lines
    some { filename := filename, lines := lines,
           embeddings := lines_for_embedding.map embed }

/-- The candidate-collection loop of `search_documents` in `src/search/mod.rs`:
documents in caller order, lines in ascending index, one `SearchResult` pushed
for each line whose cosine distance is defined and below the threshold
(`max_distance`, defaulting to 100.0).  The similarity kernel (simsimd
`f32::cosine`) is external and passed as `cosine`; it returns `none` where the
distance is undefined. -/
def collectResults (cosine : List ℚ → List ℚ → Option ℚ) (documents : List Document)
    (query_embedding : List ℚ) (config : SearchConfig) : List SearchResult :=
  documents.flatMap (fun doc =>
    doc.embeddings.enum.filterMap (fun p =>
      match cosine query_embedding p.2 with
      | none => none
      | some distance =>
        let distance_threshold := config.max_distance.getD 100
        if distance < distance_threshold then
          some { filename := doc.filename,
                 lines := listSlice doc.lines (p.1 - config.n_lines)
                   (min doc.lines.length (p.1 + config.n_lines + 1)),
                 distance := distance,
                 start := p.1 - config.n_lines,
                 «end» := min doc.lines.length (p.1 + config.n_lines + 1),
                 match_line := p.1 }
        else none))

/-- The comparator of the Rust stable sort in `search_documents`: ascending by
distance (`partial_cmp` on rationals is total). -/
def distLE (a b : SearchResult) : Bool := decide (a.distance ≤ b.distance)

/-- Translated from `search_documents` in `src/search/mod.rs`: collect the
candidates, stable-sort ascending by distance, and truncate to `top_k` only
when `max_distance` is unset. -/
def search_documents (cosine : List ℚ → List ℚ → Option ℚ) (documents : List Document)
    (query_embedding : List ℚ) (config : SearchConfig) : List SearchResult :=
  let search_results := collectResults cosine documents query_embedding config
  let sorted := sortStable distLE search_results
  if (config.max_distance).isSome then sorted else sorted.take config.top_k

/-- `CURRENT_EMBEDDING_VERSION` in `src/workspace/store.rs`. -/
def CURRENT_EMBEDDING_VERSION : Nat := 2

/-- `DocMeta` in `src/workspace/store.rs`; the Rust field `_version` is named
`version` here. -/
structure DocMeta where
  path : String
  size_bytes : Nat
  mtime : Int
  version : Nat
  deriving DecidableEq

/-- `LineEmbedding` in `src/workspace/store.rs`. -/
structure LineEmbedding where
  path : String
  line_number : Int
  embedding : List ℚ
  deriving DecidableEq

/-- `RankedLine` in `src/workspace/store.rs`. -/
structure RankedLine where
  path : String
  line_number : Int
  distance : ℚ
  deriving DecidableEq

/-- `DocMeta::id`: FNV-1a hash of the UTF-8 bytes of the path. -/
def DocMeta.id (m : DocMeta) : Nat := fnv1a_hash (utf8Bytes m.path)

/-- `LineEmbedding::id`: FNV-1a hash of the path bytes followed by the
little-endian bytes of the line number. -/
def LineEmbedding.id (le : LineEmbedding) : Nat :=
  fnv1a_hash (utf8Bytes le.path ++ i32LeBytes le.line_number)

/-- Modelled from the spec: a point of the `documents` shard — numeric id, the
dummy one-dimensional vector, and the `DocMeta` payload. -/
structure DocPoint where
  id : Nat
  vector : List ℚ
  meta : DocMeta
  deriving DecidableEq

/-- Modelled from the spec: a point of the `line_embeddings` shard — numeric
id, the embedding vector, and the payload fields `path` and `line_number`
(the embedding itself is not part of the payload). -/
structure LinePoint where
  id : Nat
  vector : List ℚ
  path : String
  line_number : Int
  deriving DecidableEq

/-- The two shards of `Store` in `src/workspace/store.rs`, each modelled as
its list of points in storage order. -/
structure Store where
  documents : List DocPoint
  lines : List LinePoint
  deriving DecidableEq

/-- Modelled from the spec: upserting one point into a shard replaces any
point carrying the same id and appends the new point (insert-or-replace by
deterministic id). -/
def upsertPoint (key : α → Nat) (s : List α) (p : α) : List α :=
  s.filter (fun q => key q != key p) ++ [p]

/-- Modelled from the spec: a points-list upsert applies the single-point
upsert left to right, so a later entry with the same id wins. -/
def upsertPoints (key : α → Nat) (s : List α) (ps : List α) : List α :=
  ps.foldl (upsertPoint key) s

/-- `make_point` for a metadata entry: deterministic id from the path hash and
the dummy `[1]` vector (`upsert_document_metadata` in the source). -/
def mkDocPoint (m : DocMeta) : DocPoint :=
  { id := m.id, vector := [1], meta := m }

/-- `make_point` for a line embedding: deterministic id from
`(path, line_number)`, the embedding as vector (`upsert_line_embeddings`). -/
def mkLinePoint (le : LineEmbedding) : LinePoint :=
  { id := le.id, vector := le.embedding, path := le.path,
    line_number := le.line_number }

/-- Translated from `Store::upsert_document_metadata`: nothing on an empty
input, otherwise batches of at most 1000 with one upsert per batch. -/
def upsert_document_metadata (metas : List DocMeta) (st : Store) : Store :=
  if metas.isEmpty then st
  else
    let newDocs := (chunksOf 1000 metas).foldl
      (fun sh chunk => upsertPoints DocPoint.id sh (chunk.map mkDocPoint))
      st.documents
    { st with documents := newDocs }

/-- Translated from `Store::upsert_line_embeddings`: nothing on an empty
input, otherwise batches of at most 1000 with one upsert per batch. -/
def upsert_line_embeddings (line_embeddings : List LineEmbedding) (st : Store) : Store :=
  if line_embeddings.isEmpty then st
  else
    let newLines := (chunksOf 1000 line_embeddings).foldl
      (fun sh chunk => upsertPoints LinePoint.id sh (chunk.map mkLinePoint))
      st.lines
    { st with lines := newLines }

/-- Model of `HashMap::insert`: replace the binding of the key, keep the other
bindings. -/
def insertReplace (m : List (String × DocMeta)) (k : String) (v : DocMeta) :
    List (String × DocMeta) :=
  m.filter (fun e => e.1 != k) ++ [(k, v)]

/-- `HashMap::get` on the model. -/
def lookupMeta (m : List (String × DocMeta)) (p : String) : Option DocMeta :=
  (m.find? (fun e => e.1 == p)).map (fun e => e.2)

/-- Translated from `Store::get_existing_docs`: the paths are chunked by 1000;
each chunk scrolls the documents shard with a filter matching only the `path`
payload field (there is no version condition in this filter), and every record
found is inserted into the map under its path.  The scroll (Qdrant Edge) is
modelled from the spec as returning all points matching the filter in storage
order. -/
def get_existing_docs (st : Store) (paths : List String) : List (String × DocMeta) :=
  (chunksOf 1000 paths).foldl
    (fun existing chunk =>
      (st.documents.filter (fun pt => chunk.contains pt.meta.path)).foldl
        (fun ex pt => insertReplace ex pt.meta.path pt.meta) existing)
    []

/-- Translated from `Store::delete_document_metadata`: collect the ids of the
documents-shard points whose `path` is in the list and whose `_version` equals
`CURRENT_EMBEDDING_VERSION`, then delete exactly the collected ids.  The
scroll and `DeletePoints` operations (Qdrant Edge) are modelled from the
spec. -/
def delete_document_metadata (paths : List String) (st : Store) : Store :=
  if paths.isEmpty then st
  else
    let point_ids := (chunksOf 1000 paths).foldl
      (fun ids chunk => ids ++
        (st.documents.filter (fun pt =>
          chunk.contains pt.meta.path
            && pt.meta.version == CURRENT_EMBEDDING_VERSION)).map
          (fun pt => pt.id))
      []
    { st with documents := st.documents.filter (fun pt => !(point_ids.contains pt.id)) }

/-- Translated from `Store::delete_line_embeddings`: collect the ids of all
line-shard points whose `path` is in the list (no version condition), then
delete exactly the collected ids. -/
def delete_line_embeddings (paths : List String) (st : Store) : Store :=
  if paths.isEmpty then st
  else
    let point_ids := (chunksOf 1000 paths).foldl
      (fun ids chunk => ids ++
        (st.lines.filter (fun pt => chunk.contains pt.path)).map (fun pt => pt.id))
      []
    { st with lines := st.lines.filter (fun pt => !(point_ids.contains pt.id)) }

/-- Translated from `Store::delete_documents`: delete from the documents shard
first, then from the line-embeddings shard. -/
def delete_documents (paths : List String) (st : Store) : Store :=
  delete_line_embeddings paths (delete_document_metadata paths st)

/-- The comparator used to merge ranked lines: ascending by distance. -/
def rankedLE (a b : RankedLine) : Bool := decide (a.distance ≤ b.distance)

/-- Modelled from the spec: the Qdrant Edge nearest-neighbour query on the
line shard.  `sim` is the backend cosine similarity (higher means closer).
The query keeps the points whose `path` is in the filter and, when a score
threshold is given, whose score is at least the threshold; it returns at most
`limit` points ordered by descending score. -/
def shardQuery (sim : List ℚ → List ℚ → ℚ) (shard : List LinePoint)
    (query_vec : List ℚ) (pathFilter : List String) (score_threshold : Option ℚ)
    (limit : Nat) : List (LinePoint × ℚ) :=
  let scored := (shard.filter (fun pt => pathFilter.contains pt.path)).map
    (fun pt => (pt, sim query_vec pt.vector))
  let kept := match score_threshold with
    | none => scored
    | some t => scored.filter (fun r => decide (t ≤ r.2))
  (sortStable (fun a b => decide (b.2 ≤ a.2)) kept).take limit

/-- Translated from `Store::search_line_embeddings`: short-circuit on an empty
path subset or `top_k = 0`; chunk the path filter by 1000; per chunk, query
with limit `top_k * 2` and score threshold `1 - max_distance` when given; turn
each hit into a `RankedLine` with `distance = 1 - score`; sort everything
ascending by distance and truncate to `top_k`. -/
def search_line_embeddings (sim : List ℚ → List ℚ → ℚ) (st : Store)
    (query_vec : List ℚ) (subset_paths : List String) (top_k : Nat)
    (max_distance : Option ℚ) : List RankedLine :=
  if subset_paths.isEmpty || top_k == 0 then []
  else
    let all_results := (chunksOf 1000 subset_paths).foldl
      (fun acc chunk =>
        let results := shardQuery sim st.lines query_vec chunk
          (max_distance.map (fun md => 1 - md)) (top_k * 2)
        acc ++ results.map (fun r =>
          { path := r.1.path, line_number := r.1.line_number,
            distance := 1 - r.2 }))
      []
    (sortStable rankedLE all_results).take top_k

/-- The spec's description of `search_line_embeddings` (claim C6), written
from its words: one backend query per chunk of at most 1000 paths, per-chunk
limit `2 × top_k`, score threshold `1 − max_distance`, each hit's distance
`1 − score`, all chunk results merged, sorted ascending by distance, and
truncated globally to `top_k`. -/
def search_line_embeddings_spec (sim : List ℚ → List ℚ → ℚ) (st : Store)
    (query_vec : List ℚ) (subset_paths : List String) (top_k : Nat)
    (max_distance : Option ℚ) : List RankedLine :=
  (sortStable rankedLE ((chunksOf 1000 subset_paths).flatMap (fun chunk =>
      (shardQuery sim st.lines query_vec chunk
        (max_distance.map (fun md => 1 - md)) (2 * top_k)).map (fun r =>
          { path := r.1.path, line_number := r.1.line_number,
            distance := 1 - r.2 })))).take top_k

/-- `DocumentInfo` in `src/search/mod.rs`. -/
structure DocumentInfo where
  filename : String
  content : String
  meta : DocMeta
  deriving DecidableEq

/-- `DocumentState` in `src/workspace/store.rs`. -/
inductive DocumentState where
  | Unchanged : String → DocumentState
  | Changed : DocumentInfo → DocumentState
  | New : DocumentInfo → DocumentState
  deriving DecidableEq

/-- The on-disk state of one file as the code observes it: `metadata.len()`,
the modification time in seconds since the epoch, and the content read by
`read_to_string`.  The filesystem is external and modelled as a partial map
from path to this record; `none` means the file does not exist. -/
structure FileInfo where
  size_bytes : Nat
  mtime : Int
  content : String
  deriving DecidableEq

/-- Translated from `Store::analyze_document_states`: look up the existing
metadata once for the whole list, then walk the paths in order, silently
skipping paths whose file does not exist on disk, and classify each remaining
path by comparing the stored metadata with the fresh one. -/
def analyze_document_states (fs : String → Option FileInfo) (st : Store)
    (file_paths : List String) : List DocumentState :=
  let existing_docs := get_existing_docs st file_paths
  file_paths.foldl
    (fun states file_path =>
      match fs file_path with
      | none => states
      | some info =>
        let current_meta : DocMeta :=
          { path := file_path, size_bytes := info.size_bytes, mtime := info.mtime,
            version := CURRENT_EMBEDDING_VERSION }
        match lookupMeta existing_docs file_path with
        | some existing_meta =>
          if existing_meta.size_bytes ≠ current_meta.size_bytes
              ∨ existing_meta.mtime ≠ current_meta.mtime
              ∨ existing_meta.version ≠ CURRENT_EMBEDDING_VERSION then
            states ++ [DocumentState.Changed
              { filename := file_path, content := info.content, meta := current_meta }]
          else
            states ++ [DocumentState.Unchanged file_path]
        | none =>
          states ++ [DocumentState.New
            { filename := file_path, content := info.content, meta := current_meta }])
    []

/-- The spec's per-path classification (claim C5), written from its words:
`Unchanged` when a stored `DocMeta` exists with matching size, mtime, and
current version; `Changed` when one exists but any of the three differ; `New`
when none exists; `none` (the path is absent from the output) when the file
does not exist on disk. -/
def classifySpec (stored : Option DocMeta) (onDisk : Option FileInfo)
    (p : String) : Option DocumentState :=
  match onDisk with
  | none => none
  | some info =>
    let fresh : DocMeta :=
      { path := p, size_bytes := info.size_bytes,
        mtime := info.mtime, version := CURRENT_EMBEDDING_VERSION }
    match stored with
    | none =>
      some (DocumentState.New { filename := p, content := info.content, meta := fresh })
    | some m =>
      if m.size_bytes = info.size_bytes ∧ m.mtime = info.mtime
          ∧ m.version = CURRENT_EMBEDDING_VERSION then
        some (DocumentState.Unchanged p)
      else
        some (DocumentState.Changed
          { filename := p, content := info.content, meta := fresh })

/-! ### Concrete inputs used by the closed instance theorems -/

/-- A trivial embedder used in concrete instances. -/
def embedW : String → List ℚ := fun _ => [0]

/-- A trivial cosine kernel: every distance is defined and zero. -/
def cosW : List ℚ → List ℚ → Option ℚ := fun _ _ => some 0

/-- A trivial backend similarity: every score is one. -/
def simW : List ℚ → List ℚ → ℚ := fun _ _ => 1

/-- A three-line document. -/
def docW : Document :=
  { filename := "f", lines := ["a", "b", "c"], embeddings := [[1], [1], [1]] }

/-- A configuration with `top_k = 2` and no distance threshold. -/
def cfgTop : SearchConfig :=
  { n_lines := 1, top_k := 2, max_distance := none, ignore_case := false }

/-- A configuration with a distance threshold of 1. -/
def cfgThr : SearchConfig :=
  { n_lines := 1, top_k := 2, max_distance := some 1, ignore_case := false }

/-- The first result of searching `docW` with `cosW` and `cfgTop`. -/
def resW : SearchResult :=
  { filename := "f", lines := ["a", "b"], start := 0, «end» := 2,
    match_line := 0, distance := 0 }

/-- A metadata entry for path `"a"` persisted with version 1. -/
def metaA1 : DocMeta := { path := "a", size_bytes := 5, mtime := 0, version := 1 }

/-- A metadata entry for path `"b"` persisted with version 2. -/
def metaB2 : DocMeta := { path := "b", size_bytes := 7, mtime := 0, version := 2 }

/-- One line embedding for path `"a"`. -/
def lineA : LineEmbedding := { path := "a", line_number := 0, embedding := [1] }

/-- One line embedding for path `"b"`. -/
def lineB : LineEmbedding := { path := "b", line_number := 0, embedding := [1] }

/-- A store holding only the version-1 metadata point for `"a"`. -/
def storeA : Store := { documents := [mkDocPoint metaA1], lines := [] }

/-- A store holding metadata for `"a"` (version 1) and `"b"` (version 2) and
one line embedding for each path. -/
def storeAB : Store :=
  { documents := [mkDocPoint metaA1, mkDocPoint metaB2],
    lines := [mkLinePoint lineA, mkLinePoint lineB] }

/-- The ranked line returned by the concrete delete-then-search instance
(the backend score is 1, so the distance is `1 - 1`). -/
def rlA : RankedLine := { path := "a", line_number := 0, distance := 1 - 1 }

/-! ### Generic lemmas about the helper functions -/

theorem mem_insertSorted (le : α → α → Bool) (x a : α) :
    ∀ l : List α, a ∈ insertSorted le x l ↔ a = x ∨ a ∈ l := by
  intro l
  induction l with
  | nil => simp [insertSorted]
  | cons y ys ih =>
    rw [insertSorted]
    by_cases h : le y x = true
    · simp only [if_pos h, List.mem_cons, ih]
      tauto
    · simp only [if_neg h, List.mem_cons]

theorem insertSorted_perm (le : α → α → Bool) (x : α) :
    ∀ l : List α, (insertSorted le x l).Perm (x :: l) := by
  intro l
  induction l with
  | nil => exact List.Perm.refl _
  | cons y ys ih =>
    rw [insertSorted]
    by_cases h : le y x = true
    · simp only [if_pos h]
      exact (ih.cons y).trans (List.Perm.swap x y ys)
    · simp only [if_neg h]
      exact List.Perm.refl _

theorem sortStable_perm_aux (le : α → α → Bool) :
    ∀ (l acc : List α),
      (List.foldl (fun a x => insertSorted le x a) acc l).Perm (acc ++ l) := by
  intro l
  induction l with
  | nil => intro acc; simp
  | cons x xs ih =>
    intro acc
    refine (ih (insertSorted le x acc)).trans ?_
    refine ((insertSorted_perm le x acc).append_right xs).trans ?_
    exact List.perm_middle.symm

theorem sortStable_perm (le : α → α → Bool) (l : List α) : (sortStable le l).Perm l := by
  simpa using sortStable_perm_aux le l []

theorem mem_sortStable (le : α → α → Bool) (l : List α) (a : α) :
    a ∈ sortStable le l ↔ a ∈ l :=
  (sortStable_perm le l).mem_iff

theorem pairwise_insertSorted (le : α → α → Bool)
    (htot : ∀ a b, le a b = false → le b a = true)
    (htrans : ∀ a b c, le a b = true → le b c = true → le a c = true)
    (x : α) :
    ∀ l : List α, l.Pairwise (fun a b => le a b = true) →
      (insertSorted le x l).Pairwise (fun a b => le a b = true) := by
  intro l
  induction l with
  | nil => intro _; simp [insertSorted]
  | cons y ys ih =>
    intro h
    rw [List.pairwise_cons] at h
    rw [insertSorted]
    by_cases hyx : le y x = true
    · simp only [if_pos hyx]
      rw [List.pairwise_cons]
      refine ⟨?_, ih h.2⟩
      intro b hb
      rcases (mem_insertSorted le x b ys).mp hb with hbx | hby
      · exact hbx ▸ hyx
      · exact h.1 b hby
    · simp only [if_neg hyx]
      have hxy : le x y = true := htot y x (Bool.not_eq_true _ ▸ hyx)
      rw [List.pairwise_cons]
      refine ⟨?_, List.pairwise_cons.mpr h⟩
      intro b hb
      rcases List.mem_cons.mp hb with hby | hbys
      · exact hby ▸ hxy
      · exact htrans x y b hxy (h.1 b hbys)

theorem sortStable_sorted_aux (le : α → α → Bool)
    (htot : ∀ a b, le a b = false → le b a = true)
    (htrans : ∀ a b c, le a b = true → le b c = true → le a c = true) :
    ∀ (l acc : List α), acc.Pairwise (fun a b => le a b = true) →
      (List.foldl (fun a x => insertSorted le x a) acc l).Pairwise
        (fun a b => le a b = true) := by
  intro l
  induction l with
  | nil => intro acc h; exact h
  | cons x xs ih =>
    intro acc h
    exact ih (insertSorted le x acc) (pairwise_insertSorted le htot htrans x acc h)

theorem sortStable_sorted (le : α → α → Bool)
    (htot : ∀ a b, le a b = false → le b a = true)
    (htrans : ∀ a b c, le a b = true → le b c = true → le a c = true)
    (l : List α) :
    (sortStable le l).Pairwise (fun a b => le a b = true) :=
  sortStable_sorted_aux le htot htrans l [] List.Pairwise.nil

theorem filter_insertSorted (le : α → α → Bool) (P : α → Bool)
    (hP : ∀ a b, P a = true → P b = true → le a b = true)
    (htrans : ∀ a b c, le a b = true → le b c = true → le a c = true)
    (x : α) :
    ∀ acc : List α, acc.Pairwise (fun a b => le a b = true) →
      (insertSorted le x acc).filter P =
        if P x then acc.filter P ++ [x] else acc.filter P := by
  intro acc
  induction acc with
  | nil =>
    intro _
    by_cases hx : P x = true <;> simp [insertSorted, hx]
  | cons y ys ih =>
    intro hacc
    rw [List.pairwise_cons] at hacc
    rw [insertSorted]
    by_cases hyx : le y x = true
    · rw [if_pos hyx, List.filter_cons, ih hacc.2]
      by_cases hx : P x = true <;> by_cases hy : P y = true <;>
        simp [hx, hy, List.filter_cons]
    · rw [if_neg hyx]
      by_cases hx : P x = true
      · have hnone : ∀ z, z ∈ y :: ys → ¬ P z = true := by
          intro z hz hPz
          rcases List.mem_cons.mp hz with hzy | hzys
          · exact hyx (hzy ▸ hP z x hPz hx)
          · exact hyx (htrans y z x (hacc.1 z hzys) (hP z x hPz hx))
        have hnil : (y :: ys).filter P = [] :=
          List.filter_eq_nil_iff.mpr hnone
        simp [List.filter_cons, hx, hnil]
      · simp [List.filter_cons, hx]

theorem filter_sortStable_aux (le : α → α → Bool) (P : α → Bool)
    (hP : ∀ a b, P a = true → P b = true → le a b = true)
    (htot : ∀ a b, le a b = false → le b a = true)
    (htrans : ∀ a b c, le a b = true → le b c = true → le a c = true) :
    ∀ (l acc : List α), acc.Pairwise (fun a b => le a b = true) →
      (List.foldl (fun a x => insertSorted le x a) acc l).filter P =
        acc.filter P ++ l.filter P := by
  intro l
  induction l with
  | nil => intro acc _; simp
  | cons x xs ih =>
    intro acc hacc
    have hstep := ih (insertSorted le x acc)
      (pairwise_insertSorted le htot htrans x acc hacc)
    rw [List.foldl_cons, hstep, filter_insertSorted le P hP htrans x acc hacc,
      List.filter_cons]
    by_cases hx : P x = true <;> simp [hx]

/-- The key stability property of `sortStable`: filtering by a predicate whose
holders are all tied under `le` commutes with sorting, i.e. tied elements keep
their original relative order. -/
theorem filter_sortStable (le : α → α → Bool) (P : α → Bool)
    (hP : ∀ a b, P a = true → P b = true → le a b = true)
    (htot : ∀ a b, le a b = false → le b a = true)
    (htrans : ∀ a b c, le a b = true → le b c = true → le a c = true)
    (l : List α) :
    (sortStable le l).filter P = l.filter P := by
  simpa using filter_sortStable_aux le P hP htot htrans l [] List.Pairwise.nil

theorem length_sortStable (le : α → α → Bool) (l : List α) :
    (sortStable le l).length = l.length :=
  (sortStable_perm le l).length_eq

theorem chunksFuel_congr (n : Nat) :
    ∀ (f₁ f₂ : Nat) (l : List α), l.length ≤ f₁ → l.length ≤ f₂ →
      chunksFuel n f₁ l = chunksFuel n f₂ l := by
  intro f₁
  induction f₁ with
  | zero =>
    intro f₂ l h1 _
    have hl : l = [] := List.length_eq_zero.mp (Nat.le_zero.mp h1)
    subst hl
    cases f₂ with
    | zero => rfl
    | succ f₂ => simp [chunksFuel]
  | succ f₁ ih =>
    intro f₂ l h1 h2
    cases f₂ with
    | zero =>
      have hl : l = [] := List.length_eq_zero.mp (Nat.le_zero.mp h2)
      subst hl
      simp [chunksFuel]
    | succ f₂ =>
      simp only [chunksFuel]
      by_cases hc : l.isEmpty ∨ n = 0
      · rw [if_pos hc, if_pos hc]
      · rw [if_neg hc, if_neg hc]
        have hln : l ≠ [] := by
          intro he
          exact hc (Or.inl (by simp [he]))
        have hn : n ≠ 0 := fun he => hc (Or.inr he)
        have hpos : 0 < l.length := List.length_pos.mpr hln
        have hd : (l.drop n).length = l.length - n := List.length_drop n l
        congr 1
        exact ih f₂ (l.drop n) (by omega) (by omega)

theorem chunksOf_nil (n : Nat) : chunksOf n ([] : List α) = [] := rfl

theorem chunksOf_cons (n : Nat) (hn : n ≠ 0) (l : List α) (hl : l ≠ []) :
    chunksOf n l = l.take n :: chunksOf n (l.drop n) := by
  rcases l with _ | ⟨a, t⟩
  · exact absurd rfl hl
  · show chunksFuel n (t.length + 1) (a :: t) = _
    rw [chunksFuel]
    rw [if_neg (by simp [hn])]
    congr 1
    have hd : ((a :: t).drop n).length = (a :: t).length - n := List.length_drop _ _
    exact chunksFuel_congr n t.length ((a :: t).drop n).length ((a :: t).drop n)
      (by simp at hd ⊢; omega) le_rfl

theorem flatten_chunksOf (n : Nat) (hn : n ≠ 0) :
    ∀ l : List α, (chunksOf n l).flatten = l := by
  have key : ∀ (k : Nat) (l : List α), l.length ≤ k → (chunksOf n l).flatten = l := by
    intro k
    induction k with
    | zero =>
      intro l hl
      have : l = [] := List.length_eq_zero.mp (Nat.le_zero.mp hl)
      simp [this, chunksOf_nil]
    | succ k ih =>
      intro l hl
      by_cases h : l = []
      · simp [h, chunksOf_nil]
      · rw [chunksOf_cons n hn l h]
        have hpos : 0 < l.length := List.length_pos.mpr h
        have hd : (l.drop n).length = l.length - n := List.length_drop n l
        rw [List.flatten_cons, ih (l.drop n) (by omega)]
        exact List.take_append_drop n l
  exact fun l => key l.length l le_rfl

theorem mem_of_mem_chunksOf (n : Nat) (hn : n ≠ 0) {l c : List α} {a : α}
    (hc : c ∈ chunksOf n l) (ha : a ∈ c) : a ∈ l :=
  flatten_chunksOf n hn l ▸ List.mem_flatten_of_mem hc ha

theorem exists_mem_chunksOf (n : Nat) (hn : n ≠ 0) {l : List α} {a : α}
    (ha : a ∈ l) : ∃ c, c ∈ chunksOf n l ∧ a ∈ c := by
  rw [← flatten_chunksOf n hn l] at ha
  exact List.mem_flatten.mp ha

theorem foldl_append_eq_flatMap (f : α → List β) :
    ∀ (l : List α) (acc : List β),
      l.foldl (fun s x => s ++ f x) acc = acc ++ l.flatMap f := by
  intro l
  induction l with
  | nil => intro acc; simp
  | cons x xs ih =>
    intro acc
    rw [List.foldl_cons, ih (acc ++ f x)]
    simp

theorem foldl_toList_eq_filterMap (f : α → Option β) :
    ∀ (l : List α) (acc : List β),
      l.foldl (fun s x => s ++ (f x).toList) acc = acc ++ l.filterMap f := by
  intro l
  induction l with
  | nil => intro acc; simp
  | cons x xs ih =>
    intro acc
    rw [List.foldl_cons, ih (acc ++ (f x).toList), List.filterMap_cons]
    cases hfx : f x <;> simp [hfx]

/-! ### Lemmas about the shard upsert model -/

theorem upsertPoint_nil (key : α → Nat) (x : α) : upsertPoint key [] x = [x] := rfl

theorem upsertPoints_cons (key : α → Nat) (s : List α) (x : α) (t : List α) :
    upsertPoints key s (x :: t) = upsertPoints key (upsertPoint key s x) t := rfl

theorem upsertPoints_eq (key : α → Nat) :
    ∀ (xs s : List α),
      upsertPoints key s xs =
        s.filter (fun q => !(xs.any (fun x => key x == key q))) ++
          upsertPoints key [] xs := by
  intro xs
  induction xs with
  | nil => intro s; simp [upsertPoints]
  | cons x t ih =>
    intro s
    rw [upsertPoints_cons, ih (upsertPoint key s x), upsertPoints_cons key [] x t,
      upsertPoint_nil, ih [x]]
    rw [upsertPoint, List.filter_append, List.filter_filter, ← List.append_assoc]
    have hpt : List.filter
          (fun a => (!t.any fun x => key x == key a) && (key a != key x)) s
        = List.filter (fun q => !((x :: t).any fun x => key x == key q)) s := by
      apply List.filter_congr
      intro a _
      simp only [List.any_cons, Bool.not_or, bne]
      rw [Bool.and_comm, Bool.beq_comm]
    rw [hpt]

theorem mem_upsertPoints_nil (key : α → Nat) :
    ∀ (xs : List α) (q : α), q ∈ upsertPoints key [] xs →
      xs.any (fun x => key x == key q) = true := by
  intro xs
  induction xs with
  | nil => intro q h; simp [upsertPoints] at h
  | cons x t ih =>
    intro q h
    rw [upsertPoints_cons key [] x t, upsertPoint_nil, upsertPoints_eq key t [x]] at h
    rcases List.mem_append.mp h with h1 | h2
    · have hqx : q ∈ [x] := (List.mem_filter.mp h1).1
      have : q = x := by simpa using hqx
      subst this
      simp [List.any_cons]
    · have := ih q h2
      simp [List.any_cons, this]

theorem upsertPoints_idem (key : α → Nat) (xs s : List α) :
    upsertPoints key (upsertPoints key s xs) xs = upsertPoints key s xs := by
  rw [upsertPoints_eq key xs (upsertPoints key s xs), upsertPoints_eq key xs s]
  rw [List.filter_append, List.filter_filter]
  rw [List.filter_congr (fun a _ => Bool.and_self _)]
  have h2 : (upsertPoints key [] xs).filter
      (fun q => !(xs.any (fun x => key x == key q))) = [] := by
    apply List.filter_eq_nil_iff.mpr
    intro a ha
    simp [mem_upsertPoints_nil key xs a ha]
  rw [h2]
  simp

theorem upsertPoints_chunks (key : α → Nat) (f : β → α) (n : Nat) (hn : n ≠ 0) :
    ∀ (l : List β) (s : List α),
      (chunksOf n l).foldl (fun sh chunk => upsertPoints key sh (chunk.map f)) s =
        upsertPoints key s (l.map f) := by
  have key1 : ∀ (k : Nat) (l : List β) (s : List α), l.length ≤ k →
      (chunksOf n l).foldl (fun sh chunk => upsertPoints key sh (chunk.map f)) s =
        upsertPoints key s (l.map f) := by
    intro k
    induction k with
    | zero =>
      intro l s hl
      have : l = [] := List.length_eq_zero.mp (Nat.le_zero.mp hl)
      simp [this, chunksOf_nil, upsertPoints]
    | succ k ih =>
      intro l s hl
      by_cases h : l = []
      · simp [h, chunksOf_nil, upsertPoints]
      · have hpos : 0 < l.length := List.length_pos.mpr h
        have hd : (l.drop n).length = l.length - n := List.length_drop n l
        rw [chunksOf_cons n hn l h, List.foldl_cons,
          ih (l.drop n) _ (by omega)]
        rw [upsertPoints, upsertPoints, upsertPoints, ← List.foldl_append,
          ← List.map_append, List.take_append_drop]
  exact fun l s => key1 l.length l s le_rfl

theorem upsert_line_embeddings_eq (xs : List LineEmbedding) (st : Store) :
    upsert_line_embeddings xs st =
      if xs.isEmpty then st
      else { st with lines := upsertPoints LinePoint.id st.lines (xs.map mkLinePoint) } := by
  have hch := upsertPoints_chunks LinePoint.id mkLinePoint 1000 (by decide) xs st.lines
  unfold upsert_line_embeddings
  by_cases hx : xs.isEmpty
  · simp [hx]
  · simp only [Bool.not_eq_true] at hx
    simp [hx, hch]

/-- C8: running `upsert_line_embeddings(xs)` twice in succession yields the
same store state as running it once: each entry's point id is the
deterministic `LineEmbedding::id` of `(path, line_number)`, so the second run
replaces every point it wrote rather than duplicating it. -/
theorem upsert_line_embeddings_idempotent (xs : List LineEmbedding) (st : Store) :
    upsert_line_embeddings xs (upsert_line_embeddings xs st) =
      upsert_line_embeddings xs st := by
  by_cases hx : xs.isEmpty
  · simp [upsert_line_embeddings_eq, hx]
  · simp only [Bool.not_eq_true] at hx
    simp [upsert_line_embeddings_eq, hx, upsertPoints_idem]

/-! ### Lemmas about line splitting and document construction (C2) -/

theorem linesAux_ne_nil : ∀ (cs acc : List Char), acc ≠ [] → linesAux cs acc ≠ [] := by
  intro cs
  induction cs with
  | nil =>
    intro acc hacc
    rw [linesAux]
    rw [if_neg (by simpa using hacc)]
    simp
  | cons c rest ih =>
    intro acc hacc
    rw [linesAux]
    by_cases hc : c = '\n'
    · rw [if_pos hc]; simp
    · rw [if_neg hc]
      exact ih (c :: acc) (by simp)

theorem rustLinesChar_eq_nil_iff (cs : List Char) : rustLinesChar cs = [] ↔ cs = [] := by
  constructor
  · intro h
    by_contra hne
    rcases cs with _ | ⟨c, rest⟩
    · exact hne rfl
    · rw [rustLinesChar, linesAux] at h
      by_cases hc : c = '\n'
      · rw [if_pos hc] at h; simp at h
      · rw [if_neg hc] at h
        exact linesAux_ne_nil rest [c] (by simp) h
  · intro h; subst h; rfl

theorem rustLines_eq_nil_iff (s : String) : rustLines s = [] ↔ s = "" := by
  rw [rustLines, List.map_eq_nil_iff, rustLinesChar_eq_nil_iff]
  constructor
  · intro h
    cases s with
    | mk data => cases h; rfl
  · intro h; subst h; rfl

/-- C2 counterexample: the claim says a content consisting only of newline
characters yields no `Document`, but on the newline-only content `"\n"` the
code returns a `Document` with one empty line, because Rust `"\n".lines()`
yields one empty record. -/
theorem create_document_newline_counterexample :
    create_document_from_content (fun _ => [(0 : ℚ)]) "f" "\n" false =
      some { filename := "f", lines := [""], embeddings := [[0]] } := by
  decide

/-- C2 (amended): `create_document_from_content` returns no `Document` exactly
when the content is the empty string (a newline-only content yields a document
of empty lines, one per record of Rust `lines`); when it returns a `Document`,
the number of lines and the number of embeddings both equal the number of
line-separated records of the content. -/
theorem create_document_from_content_shape (embed : String → List ℚ)
    (filename content : String) (ignore_case : Bool) :
    (create_document_from_content embed filename content ignore_case = none
      ↔ content = "")
    ∧ ∀ d, create_document_from_content embed filename content ignore_case = some d →
        d.lines.length = (rustLines content).length
        ∧ d.embeddings.length = (rustLines content).length := by
  have hiff : rustLines content = [] ↔ content = "" := rustLines_eq_nil_iff content
  by_cases h : (rustLines content).isEmpty
  · have hc : content = "" := hiff.mp (List.isEmpty_iff.mp h)
    constructor
    · constructor
      · intro _; exact hc
      · intro _
        simp only [create_document_from_content]
        rw [if_pos h]
    · intro d hd
      simp only [create_document_from_content] at hd
      rw [if_pos h] at hd
      exact absurd hd (by simp)
  · have hne : ¬ content = "" := fun he => h (by simp [hiff.mpr he])
    constructor
    · constructor
      · intro hsome
        simp only [create_document_from_content] at hsome
        rw [if_neg h] at hsome
        exact absurd hsome (by simp)
      · intro he; exact absurd he hne
    · intro d hd
      simp only [create_document_from_content] at hd
      rw [if_neg h] at hd
      have hd' := Option.some.inj hd
      subst hd'
      by_cases hic : ignore_case = true <;> simp [hic]

/-! ### Lemmas about `search_documents` (C3, C4, C9) -/

theorem distLE_total' : ∀ a b : SearchResult, distLE a b = false → distLE b a = true := by
  intro a b h
  simp only [distLE, decide_eq_false_iff_not] at h
  simp only [distLE, decide_eq_true_eq]
  exact le_of_not_le h

theorem distLE_trans' : ∀ a b c : SearchResult,
    distLE a b = true → distLE b c = true → distLE a c = true := by
  intro a b c hab hbc
  simp only [distLE, decide_eq_true_eq] at *
  exact le_trans hab hbc

theorem mem_search_documents_sub (cosine : List ℚ → List ℚ → Option ℚ)
    (documents : List Document) (query_embedding : List ℚ) (config : SearchConfig)
    (r : SearchResult)
    (hr : r ∈ search_documents cosine documents query_embedding config) :
    r ∈ collectResults cosine documents query_embedding config := by
  simp only [search_documents] at hr
  by_cases h : (config.max_distance).isSome
  · rw [if_pos h] at hr
    exact (mem_sortStable distLE _ r).mp hr
  · rw [if_neg h] at hr
    exact (mem_sortStable distLE _ r).mp (List.mem_of_mem_take hr)

theorem collectResults_spec (cosine : List ℚ → List ℚ → Option ℚ)
    (documents : List Document) (query_embedding : List ℚ) (config : SearchConfig)
    (r : SearchResult)
    (hr : r ∈ collectResults cosine documents query_embedding config) :
    ∃ doc, doc ∈ documents ∧ ∃ i e d, (i, e) ∈ doc.embeddings.enum
      ∧ cosine query_embedding e = some d
      ∧ d < config.max_distance.getD 100
      ∧ r = { filename := doc.filename,
              lines := listSlice doc.lines (i - config.n_lines)
                (min doc.lines.length (i + config.n_lines + 1)),
              distance := d,
              start := i - config.n_lines,
              «end» := min doc.lines.length (i + config.n_lines + 1),
              match_line := i } := by
  simp only [collectResults, List.mem_flatMap] at hr
  obtain ⟨doc, hdoc, hmem⟩ := hr
  obtain ⟨p, hp, hbody⟩ := List.mem_filterMap.mp hmem
  obtain ⟨i, e⟩ := p
  refine ⟨doc, hdoc, i, e, ?_⟩
  cases hcos : cosine query_embedding e with
  | none => rw [hcos] at hbody; exact absurd hbody (by simp)
  | some d =>
    rw [hcos] at hbody
    simp only at hbody
    by_cases hlt : d < config.max_distance.getD 100
    · rw [if_pos hlt] at hbody
      exact ⟨d, hp, rfl, hlt, (Option.some.inj hbody).symm⟩
    · rw [if_neg hlt] at hbody
      exact absurd hbody (by simp)

/-- C4: every result of `search_documents` comes from some input document and
carries the context window of its matching line: `start = max(0, i − n_lines)`,
`end = min(|lines|, i + n_lines + 1)`, and `lines` is the document's line range
from `start` (inclusive) to `end` (exclusive). -/
theorem search_documents_context_window (cosine : List ℚ → List ℚ → Option ℚ)
    (documents : List Document) (query_embedding : List ℚ) (config : SearchConfig) :
    ∀ r ∈ search_documents cosine documents query_embedding config,
      ∃ doc, doc ∈ documents ∧ r.filename = doc.filename
        ∧ (r.start : ℤ) = max 0 ((r.match_line : ℤ) - (config.n_lines : ℤ))
        ∧ r.«end» = min doc.lines.length (r.match_line + config.n_lines + 1)
        ∧ r.lines = listSlice doc.lines r.start r.«end» := by
  intro r hr
  obtain ⟨doc, hdoc, i, e, d, _, _, _, hre⟩ :=
    collectResults_spec cosine documents query_embedding config r
      (mem_search_documents_sub cosine documents query_embedding config r hr)
  subst hre
  refine ⟨doc, hdoc, rfl, ?_, rfl, rfl⟩
  simp only
  omega

/-- C3: when `max_distance` is unset the result list of `search_documents` has
length at most `top_k`; when `max_distance = d` is set, every returned result
has distance strictly below `d` and no truncation to `top_k` happens — the
output is a permutation of all kept candidates. -/
theorem search_documents_topk_maxdistance (cosine : List ℚ → List ℚ → Option ℚ)
    (documents : List Document) (query_embedding : List ℚ) (config : SearchConfig) :
    (config.max_distance = none →
      (search_documents cosine documents query_embedding config).length ≤ config.top_k)
    ∧ ∀ dmax, config.max_distance = some dmax →
        (∀ r ∈ search_documents cosine documents query_embedding config,
          r.distance < dmax)
        ∧ (search_documents cosine documents query_embedding config).Perm
            (collectResults cosine documents query_embedding config) := by
  constructor
  · intro hnone
    simp only [search_documents, hnone, Option.isSome_none, Bool.false_eq_true, if_false]
    exact List.length_take_le _ _
  · intro dmax hsome
    constructor
    · intro r hr
      obtain ⟨doc, hdoc, i, e, d, _, _, hlt, hre⟩ :=
        collectResults_spec cosine documents query_embedding config r
          (mem_search_documents_sub cosine documents query_embedding config r hr)
      subst hre
      simpa [hsome] using hlt
    · simp only [search_documents, hsome, Option.isSome_some, if_true]
      exact sortStable_perm distLE _

/-- C9: the results of `search_documents` are in non-decreasing order of
distance, and for every distance value the results carrying it form a prefix
of the candidates carrying it in production order (documents in caller order,
lines in ascending index), i.e. ties preserve the order in which candidates
were produced. -/
theorem search_documents_sorted_stable (cosine : List ℚ → List ℚ → Option ℚ)
    (documents : List Document) (query_embedding : List ℚ) (config : SearchConfig) :
    (search_documents cosine documents query_embedding config).Pairwise
        (fun a b => a.distance ≤ b.distance)
    ∧ ∀ dval : ℚ, ∃ t,
        (search_documents cosine documents query_embedding config).filter
            (fun r => decide (r.distance = dval)) ++ t
          = (collectResults cosine documents query_embedding config).filter
              (fun r => decide (r.distance = dval)) := by
  constructor
  · have hs := sortStable_sorted distLE distLE_total' distLE_trans'
      (collectResults cosine documents query_embedding config)
    have hs' : (sortStable distLE
        (collectResults cosine documents query_embedding config)).Pairwise
          (fun a b => a.distance ≤ b.distance) :=
      hs.imp (fun h => by simpa [distLE] using h)
    simp only [search_documents]
    by_cases h : (config.max_distance).isSome
    · rw [if_pos h]; exact hs'
    · rw [if_neg h]; exact hs'.sublist (List.take_sublist _ _)
  · intro dval
    have hP : ∀ a b : SearchResult, decide (a.distance = dval) = true →
        decide (b.distance = dval) = true → distLE a b = true := by
      intro a b ha hb
      simp only [decide_eq_true_eq] at ha hb
      simp [distLE, ha, hb]
    have hfil := filter_sortStable distLE (fun r => decide (r.distance = dval)) hP
      distLE_total' distLE_trans'
      (collectResults cosine documents query_embedding config)
    simp only [search_documents]
    by_cases h : (config.max_distance).isSome
    · rw [if_pos h]
      exact ⟨[], by rw [List.append_nil, hfil]⟩
    · rw [if_neg h]
      have hpre := ( List.take_prefix config.top_k
        (sortStable distLE (collectResults cosine documents query_embedding config))).filter
          (fun r => decide (r.distance = dval))
      obtain ⟨t, ht⟩ := hpre
      exact ⟨t, by rw [ht, hfil]⟩

/-! ### Lemmas about the store (C1, C5, C6, C7, C10) -/

theorem contains_iff_mem {α : Type _} [BEq α] [LawfulBEq α] (l : List α) (a : α) :
    l.contains a = true ↔ a ∈ l := by
  show List.elem a l = true ↔ a ∈ l
  exact List.elem_iff

theorem delete_line_embeddings_documents (paths : List String) (st : Store) :
    (delete_line_embeddings paths st).documents = st.documents := by
  unfold delete_line_embeddings
  split <;> rfl

theorem delete_document_metadata_lines (paths : List String) (st : Store) :
    (delete_document_metadata paths st).lines = st.lines := by
  unfold delete_document_metadata
  split <;> rfl

theorem delete_line_embeddings_no_path (paths : List String) (st : Store) :
    ∀ q ∈ (delete_line_embeddings paths st).lines, q.path ∉ paths := by
  intro q hq hmem
  have hne : ¬ paths.isEmpty := by
    rcases paths with _ | _
    · simp at hmem
    · simp
  unfold delete_line_embeddings at hq
  rw [if_neg hne] at hq
  rw [foldl_append_eq_flatMap, List.nil_append] at hq
  have hq' := List.mem_filter.mp hq
  obtain ⟨c, hc, hqc⟩ := exists_mem_chunksOf 1000 (by decide) hmem
  have hid : q.id ∈ (chunksOf 1000 paths).flatMap (fun chunk =>
      (st.lines.filter (fun pt => chunk.contains pt.path)).map (fun pt => pt.id)) := by
    refine List.mem_flatMap.mpr ⟨c, hc, ?_⟩
    refine List.mem_map.mpr ⟨q, ?_, rfl⟩
    refine List.mem_filter.mpr ⟨hq'.1, ?_⟩
    exact (contains_iff_mem c q.path).mpr hqc
  rw [(contains_iff_mem _ q.id).mpr hid] at hq'
  simp at hq'

theorem mem_delete_document_metadata (paths : List String) (st : Store)
    (hids : (st.documents.map DocPoint.id).Nodup) (pt : DocPoint)
    (hpt : pt ∈ st.documents) :
    pt ∈ (delete_document_metadata paths st).documents ↔
      ¬(pt.meta.path ∈ paths ∧ pt.meta.version = CURRENT_EMBEDDING_VERSION) := by
  by_cases hp : paths.isEmpty
  · unfold delete_document_metadata
    rw [if_pos hp]
    have : paths = [] := List.isEmpty_iff.mp hp
    subst this
    simp [hpt]
  · unfold delete_document_metadata
    rw [if_neg hp]
    rw [foldl_append_eq_flatMap, List.nil_append]
    simp only
    constructor
    · intro hmem hcond
      have hq' := List.mem_filter.mp hmem
      obtain ⟨c, hc, hqc⟩ := exists_mem_chunksOf 1000 (by decide) hcond.1
      have hid : pt.id ∈ (chunksOf 1000 paths).flatMap (fun chunk =>
          (st.documents.filter (fun p =>
            chunk.contains p.meta.path
              && p.meta.version == CURRENT_EMBEDDING_VERSION)).map
            (fun p => p.id)) := by
        refine List.mem_flatMap.mpr ⟨c, hc, ?_⟩
        refine List.mem_map.mpr ⟨pt, ?_, rfl⟩
        refine List.mem_filter.mpr ⟨hpt, ?_⟩
        rw [Bool.and_eq_true]
        exact ⟨(contains_iff_mem c pt.meta.path).mpr hqc, by simp [hcond.2]⟩
      rw [(contains_iff_mem _ pt.id).mpr hid] at hq'
      simp at hq'
    · intro hcond
      refine List.mem_filter.mpr ⟨hpt, ?_⟩
      rw [Bool.not_eq_true']
      by_contra hcontains
      rw [Bool.not_eq_false] at hcontains
      have hidmem := (contains_iff_mem _ pt.id).mp hcontains
      obtain ⟨c, hc, hmap⟩ := List.mem_flatMap.mp hidmem
      obtain ⟨r, hrfil, hrid⟩ := List.mem_map.mp hmap
      have hrmem := List.mem_filter.mp hrfil
      have hrpt : r = pt :=
        List.inj_on_of_nodup_map hids hrmem.1 hpt hrid
      rw [hrpt] at hrmem
      rw [Bool.and_eq_true] at hrmem
      refine hcond ⟨?_, ?_⟩
      · exact mem_of_mem_chunksOf 1000 (by decide) hc
          ((contains_iff_mem c pt.meta.path).mp hrmem.2.1)
      · simpa using hrmem.2.2

/-- C10: `delete_documents` removes from the documents shard only the metadata
points whose stored version equals `CURRENT_EMBEDDING_VERSION`; a metadata
point persisted with a different version survives, while the line shard loses
every point of the deleted paths regardless of version.  The hypothesis states
that stored point ids are distinct, which every store built by upserts
satisfies (ids are replaced, never duplicated). -/
theorem delete_documents_version_filter (st : Store) (paths : List String)
    (hids : (st.documents.map DocPoint.id).Nodup) :
    (∀ pt ∈ st.documents, pt.meta.version ≠ CURRENT_EMBEDDING_VERSION →
        pt ∈ (delete_documents paths st).documents)
    ∧ (∀ pt ∈ st.documents, pt ∉ (delete_documents paths st).documents →
        pt.meta.path ∈ paths ∧ pt.meta.version = CURRENT_EMBEDDING_VERSION)
    ∧ (∀ q ∈ (delete_documents paths st).lines, q.path ∉ paths) := by
  have hdocs : (delete_documents paths st).documents =
      (delete_document_metadata paths st).documents :=
    delete_line_embeddings_documents paths _
  refine ⟨?_, ?_, ?_⟩
  · intro pt hpt hver
    rw [hdocs]
    exact (mem_delete_document_metadata paths st hids pt hpt).mpr
      (fun hcond => hver hcond.2)
  · intro pt hpt hnot
    rw [hdocs] at hnot
    by_contra hcond
    rw [not_and_or] at hcond
    have : ¬(pt.meta.path ∈ paths ∧ pt.meta.version = CURRENT_EMBEDDING_VERSION) := by
      tauto
    exact hnot ((mem_delete_document_metadata paths st hids pt hpt).mpr this)
  · intro q hq
    exact delete_line_embeddings_no_path paths _ q hq

theorem insertReplace_mem (m : List (String × DocMeta)) (k : String) (v : DocMeta)
    (e : String × DocMeta) (he : e ∈ insertReplace m k v) : e ∈ m ∨ e = (k, v) := by
  rcases List.mem_append.mp he with h | h
  · exact Or.inl (List.mem_filter.mp h).1
  · exact Or.inr (by simpa using h)

theorem mem_docs_foldl_insert (recs : List DocPoint) :
    ∀ (acc : List (String × DocMeta)) (e : String × DocMeta),
      e ∈ recs.foldl (fun ex pt => insertReplace ex pt.meta.path pt.meta) acc →
        e ∈ acc ∨ ∃ pt, pt ∈ recs ∧ e = (pt.meta.path, pt.meta) := by
  induction recs with
  | nil => intro acc e he; exact Or.inl he
  | cons r recs ih =>
    intro acc e he
    rcases ih (insertReplace acc r.meta.path r.meta) e he with h | ⟨pt, hpt, hept⟩
    · rcases insertReplace_mem acc r.meta.path r.meta e h with h' | h'
      · exact Or.inl h'
      · exact Or.inr ⟨r, List.mem_cons_self r recs, h'⟩
    · exact Or.inr ⟨pt, List.mem_cons_of_mem r hpt, hept⟩

theorem mem_get_existing_docs (st : Store) (paths : List String)
    (e : String × DocMeta) (he : e ∈ get_existing_docs st paths) :
    ∃ pt, pt ∈ st.documents ∧ pt.meta.path ∈ paths ∧ e = (pt.meta.path, pt.meta) := by
  have key : ∀ (chunks : List (List String)) (acc : List (String × DocMeta)),
      e ∈ chunks.foldl (fun existing chunk =>
        (st.documents.filter (fun pt => chunk.contains pt.meta.path)).foldl
          (fun ex pt => insertReplace ex pt.meta.path pt.meta) existing) acc →
      e ∈ acc ∨ ∃ c, c ∈ chunks ∧ ∃ pt, pt ∈ st.documents
        ∧ pt.meta.path ∈ c ∧ e = (pt.meta.path, pt.meta) := by
    intro chunks
    induction chunks with
    | nil => intro acc h; exact Or.inl h
    | cons c chunks ih =>
      intro acc h
      rcases ih _ h with h' | ⟨c', hc', pt, hpt, hpc, hept⟩
      · rcases mem_docs_foldl_insert _ acc e h' with h'' | ⟨pt, hptf, hept⟩
        · exact Or.inl h''
        · have hmf := List.mem_filter.mp hptf
          exact Or.inr ⟨c, List.mem_cons_self c chunks,
            pt, hmf.1, (contains_iff_mem c pt.meta.path).mp hmf.2, hept⟩
      · exact Or.inr ⟨c', List.mem_cons_of_mem c hc', pt, hpt, hpc, hept⟩
  rcases key (chunksOf 1000 paths) [] he with h | ⟨c, hc, pt, hpt, hpc, hept⟩
  · simp at h
  · exact ⟨pt, hpt, mem_of_mem_chunksOf 1000 (by decide) hc hpc, hept⟩

/-- C1 (amended): `get_existing_docs` returns entries for the requested paths
with the stored metadata as is, with no condition on the stored version: every
entry of the returned map is keyed by its metadata's path, lies in the request
list, and is the payload of some stored documents-shard point — the `_version`
field is not consulted. -/
theorem get_existing_docs_entries (st : Store) (paths : List String)
    (p : String) (m : DocMeta) (he : (p, m) ∈ get_existing_docs st paths) :
    m.path = p ∧ p ∈ paths ∧ ∃ pt, pt ∈ st.documents ∧ pt.meta = m := by
  obtain ⟨pt, hpt, hpc, hept⟩ := mem_get_existing_docs st paths (p, m) he
  have h1 : p = pt.meta.path := congrArg Prod.fst hept
  have h2 : m = pt.meta := congrArg Prod.snd hept
  subst h1
  subst h2
  exact ⟨rfl, hpc, pt, hpt, rfl⟩

/-- C5: `analyze_document_states` classifies every listed path exactly as the
spec's per-path rule does — `Unchanged` on a stored `DocMeta` with matching
size, mtime, and current version; `Changed` when stored but any field differs;
`New` when absent; missing files are silently dropped (and no error arises). -/
theorem analyze_document_states_classification (fs : String → Option FileInfo)
    (st : Store) (file_paths : List String) :
    analyze_document_states fs st file_paths =
      file_paths.filterMap (fun p =>
        classifySpec (lookupMeta (get_existing_docs st file_paths) p) (fs p) p) := by
  unfold analyze_document_states
  have hbody : ∀ (states : List DocumentState) (p : String),
      (match fs p with
        | none => states
        | some info =>
          let current_meta : DocMeta :=
            { path := p, size_bytes := info.size_bytes, mtime := info.mtime,
              version := CURRENT_EMBEDDING_VERSION }
          match lookupMeta (get_existing_docs st file_paths) p with
          | some existing_meta =>
            if existing_meta.size_bytes ≠ current_meta.size_bytes
                ∨ existing_meta.mtime ≠ current_meta.mtime
                ∨ existing_meta.version ≠ CURRENT_EMBEDDING_VERSION then
              states ++ [DocumentState.Changed
                { filename := p, content := info.content, meta := current_meta }]
            else
              states ++ [DocumentState.Unchanged p]
          | none =>
            states ++ [DocumentState.New
              { filename := p, content := info.content, meta := current_meta }]) =
        states ++ (classifySpec (lookupMeta (get_existing_docs st file_paths) p)
          (fs p) p).toList := by
    intro states p
    cases hfp : fs p with
    | none => simp [classifySpec]
    | some info =>
      cases hlk : lookupMeta (get_existing_docs st file_paths) p with
      | none => simp [classifySpec, hlk]
      | some m =>
        simp only [classifySpec, hlk]
        by_cases hcond : m.size_bytes = info.size_bytes ∧ m.mtime = info.mtime
            ∧ m.version = CURRENT_EMBEDDING_VERSION
        · rw [if_pos hcond, if_neg (by push_neg; exact ⟨hcond.1, hcond.2.1, hcond.2.2⟩)]
          simp
        · rw [if_neg hcond, if_pos (by tauto)]
          simp
  have key : ∀ (l : List String) (acc : List DocumentState),
      List.foldl (fun states p =>
        (match fs p with
          | none => states
          | some info =>
            let current_meta : DocMeta :=
              { path := p, size_bytes := info.size_bytes, mtime := info.mtime,
                version := CURRENT_EMBEDDING_VERSION }
            match lookupMeta (get_existing_docs st file_paths) p with
            | some existing_meta =>
              if existing_meta.size_bytes ≠ current_meta.size_bytes
                  ∨ existing_meta.mtime ≠ current_meta.mtime
                  ∨ existing_meta.version ≠ CURRENT_EMBEDDING_VERSION then
                states ++ [DocumentState.Changed
                  { filename := p, content := info.content, meta := current_meta }]
              else
                states ++ [DocumentState.Unchanged p]
            | none =>
              states ++ [DocumentState.New
                { filename := p, content := info.content, meta := current_meta }])) acc l
        = acc ++ l.filterMap (fun p =>
            classifySpec (lookupMeta (get_existing_docs st file_paths) p) (fs p) p) := by
    intro l
    induction l with
    | nil => intro acc; simp
    | cons p l ih =>
      intro acc
      rw [List.foldl_cons, ih]
      simp only [hbody, List.filterMap_cons]
      cases hg : classifySpec (lookupMeta (get_existing_docs st file_paths) p)
          (fs p) p <;> simp [hg]
  simpa using key file_paths []

/-! ### Lemmas about `search_line_embeddings` (C6, C7) -/

theorem rankedLE_total' : ∀ a b : RankedLine, rankedLE a b = false → rankedLE b a = true := by
  intro a b h
  simp only [rankedLE, decide_eq_false_iff_not] at h
  simp only [rankedLE, decide_eq_true_eq]
  exact le_of_not_le h

theorem rankedLE_trans' : ∀ a b c : RankedLine,
    rankedLE a b = true → rankedLE b c = true → rankedLE a c = true := by
  intro a b c hab hbc
  simp only [rankedLE, decide_eq_true_eq] at *
  exact le_trans hab hbc

theorem mem_shardQuery_point (sim : List ℚ → List ℚ → ℚ) (shard : List LinePoint)
    (query_vec : List ℚ) (pathFilter : List String) (score_threshold : Option ℚ)
    (limit : Nat) (x : LinePoint × ℚ)
    (hx : x ∈ shardQuery sim shard query_vec pathFilter score_threshold limit) :
    x.1 ∈ shard := by
  simp only [shardQuery] at hx
  have hx1 := (mem_sortStable _ _ _).mp (List.mem_of_mem_take hx)
  cases score_threshold with
  | none =>
    simp only at hx1
    obtain ⟨pt, hptf, hxe⟩ := List.mem_map.mp hx1
    rw [← hxe]
    exact (List.mem_filter.mp hptf).1
  | some t =>
    simp only at hx1
    have hx2 := (List.mem_filter.mp hx1).1
    obtain ⟨pt, hptf, hxe⟩ := List.mem_map.mp hx2
    rw [← hxe]
    exact (List.mem_filter.mp hptf).1

theorem mem_search_line_embeddings_point (sim : List ℚ → List ℚ → ℚ) (st : Store)
    (query_vec : List ℚ) (subset_paths : List String) (top_k : Nat)
    (max_distance : Option ℚ) (r : RankedLine)
    (hr : r ∈ search_line_embeddings sim st query_vec subset_paths top_k max_distance) :
    ∃ pt, pt ∈ st.lines ∧ r.path = pt.path := by
  simp only [search_line_embeddings] at hr
  by_cases hc : (subset_paths.isEmpty || top_k == 0) = true
  · rw [if_pos hc] at hr
    simp at hr
  · rw [if_neg hc] at hr
    have hr1 := (mem_sortStable _ _ _).mp (List.mem_of_mem_take hr)
    rw [foldl_append_eq_flatMap, List.nil_append] at hr1
    obtain ⟨chunk, hchunk, hmm⟩ := List.mem_flatMap.mp hr1
    obtain ⟨x, hxq, hrx⟩ := List.mem_map.mp hmm
    refine ⟨x.1, mem_shardQuery_point sim st.lines query_vec chunk _ _ x hxq, ?_⟩
    rw [← hrx]

/-- C7: after `delete_documents([p])`, no search over the resulting store —
whatever the query, path subset, `top_k`, or `max_distance` — returns a
`RankedLine` whose path equals `p`. -/
theorem delete_then_search_excludes (sim : List ℚ → List ℚ → ℚ) (st : Store)
    (p : String) (query_vec : List ℚ) (subset_paths : List String) (top_k : Nat)
    (max_distance : Option ℚ) :
    ∀ r ∈ search_line_embeddings sim (delete_documents [p] st) query_vec
        subset_paths top_k max_distance, r.path ≠ p := by
  intro r hr he
  obtain ⟨pt, hpt, hrp⟩ :=
    mem_search_line_embeddings_point sim (delete_documents [p] st) query_vec
      subset_paths top_k max_distance r hr
  have hnp := delete_line_embeddings_no_path [p] (delete_document_metadata [p] st) pt hpt
  apply hnp
  rw [← hrp, he]
  exact List.mem_singleton_self p

/-- C6: for a non-empty path subset and positive `top_k`,
`search_line_embeddings` equals the spec's pipeline — chunk the path filter by
1000, query each chunk with limit `2 × top_k` and score threshold
`1 − max_distance`, convert each hit's score to `distance = 1 − score`, merge
everything, sort ascending by distance — truncated globally to `top_k`;
moreover the output is ascending in distance and has length at most `top_k`. -/
theorem search_line_embeddings_spec_correct (sim : List ℚ → List ℚ → ℚ) (st : Store)
    (query_vec : List ℚ) (subset_paths : List String) (top_k : Nat)
    (max_distance : Option ℚ) (h1 : subset_paths ≠ []) (h2 : 0 < top_k) :
    search_line_embeddings sim st query_vec subset_paths top_k max_distance
        = search_line_embeddings_spec sim st query_vec subset_paths top_k max_distance
    ∧ (search_line_embeddings sim st query_vec subset_paths top_k
        max_distance).Pairwise (fun a b => a.distance ≤ b.distance)
    ∧ (search_line_embeddings sim st query_vec subset_paths top_k
        max_distance).length ≤ top_k := by
  have hie : subset_paths.isEmpty = false := by
    rcases subset_paths with _ | ⟨a, t⟩
    · exact absurd rfl h1
    · rfl
  have hk : (top_k == 0) = false := by
    rcases top_k with _ | k
    · exact absurd h2 (by simp)
    · rfl
  have hcond : (subset_paths.isEmpty || top_k == 0) = false := by
    rw [hie, hk]
    rfl
  refine ⟨?_, ?_, ?_⟩
  · simp only [search_line_embeddings, search_line_embeddings_spec, hcond,
      Bool.false_eq_true, if_false]
    rw [foldl_append_eq_flatMap, List.nil_append]
    simp only [show top_k * 2 = 2 * top_k from Nat.mul_comm top_k 2]
  · simp only [search_line_embeddings, hcond, Bool.false_eq_true, if_false]
    exact ((sortStable_sorted rankedLE rankedLE_total' rankedLE_trans' _).imp
      (fun h => by simpa [rankedLE] using h)).sublist (List.take_sublist _ _)
  · simp only [search_line_embeddings, hcond, Bool.false_eq_true, if_false]
    exact List.length_take_le _ _

/-! ### Closed instances: counterexamples and witnesses -/

/-- C1 counterexample: on a store holding a `DocMeta` persisted with version 1
(different from `CURRENT_EMBEDDING_VERSION = 2`), `get_existing_docs` still
returns that entry — the result is not restricted to entries of the current
embedding version, so an entry persisted with a different version is present,
not absent. -/
theorem get_existing_docs_version_counterexample :
    ("a", metaA1) ∈ get_existing_docs storeA ["a"]
      ∧ metaA1.version ≠ CURRENT_EMBEDDING_VERSION := by
  decide

/-- Closed instance of the amended C1 theorem at a concrete store. -/
theorem get_existing_docs_entries_witness :
    metaA1.path = "a" ∧ "a" ∈ ["a"]
      ∧ ∃ pt, pt ∈ storeA.documents ∧ pt.meta = metaA1 :=
  get_existing_docs_entries storeA ["a"] "a" metaA1 (by decide)

/-- Closed instance of the amended C2 theorem: the empty content yields no
document, and a two-record content yields two lines. -/
theorem create_document_from_content_shape_witness :
    (create_document_from_content embedW "w" "" false = none)
      ∧ ({ filename := "w", lines := ["a", "b"], embeddings := [[0], [0]] } :
          Document).lines.length = (rustLines "a\nb").length :=
  ⟨(create_document_from_content_shape embedW "w" "" false).1.mpr rfl,
   ((create_document_from_content_shape embedW "w" "a\nb" false).2 _ (by decide)).1⟩

/-- Closed instance of the C3 theorem at concrete configurations. -/
theorem search_documents_topk_maxdistance_witness :
    (search_documents cosW [docW] [1] cfgTop).length ≤ cfgTop.top_k
      ∧ ∀ r ∈ search_documents cosW [docW] [1] cfgThr, r.distance < 1 :=
  ⟨(search_documents_topk_maxdistance cosW [docW] [1] cfgTop).1 rfl,
   fun r hr =>
     ((search_documents_topk_maxdistance cosW [docW] [1] cfgThr).2 1 rfl).1 r hr⟩

/-- Closed instance of the C4 theorem at a concrete result. -/
theorem search_documents_context_window_witness :
    ∃ doc, doc ∈ [docW] ∧ resW.filename = doc.filename
      ∧ (resW.start : ℤ) = max 0 ((resW.match_line : ℤ) - (cfgTop.n_lines : ℤ))
      ∧ resW.«end» = min doc.lines.length (resW.match_line + cfgTop.n_lines + 1)
      ∧ resW.lines = listSlice doc.lines resW.start resW.«end» :=
  search_documents_context_window cosW [docW] [1] cfgTop resW (by decide)

/-- Closed instance of the C6 theorem at a concrete store. -/
theorem search_line_embeddings_spec_correct_witness :
    (search_line_embeddings simW storeAB [1] ["a"] 1 none).length ≤ 1 :=
  (search_line_embeddings_spec_correct simW storeAB [1] ["a"] 1 none
    (by decide) (by decide)).2.2

/-- Closed instance of the C7 theorem: after deleting `"b"`, the concrete
search returns `rlA`, whose path is not `"b"`. -/
theorem delete_then_search_excludes_witness : rlA.path ≠ "b" :=
  delete_then_search_excludes simW storeAB "b" [1] ["a"] 1 none rlA (by
    have h : search_line_embeddings simW (delete_documents ["b"] storeAB) [1]
        ["a"] 1 none = [rlA] := rfl
    rw [h]
    exact List.mem_singleton_self rlA)

/-- Closed instance of the C10 theorem: deleting `"a"` leaves the version-1
metadata point for `"a"` in the documents shard. -/
theorem delete_documents_version_filter_witness :
    mkDocPoint metaA1 ∈ (delete_documents ["a"] storeAB).documents :=
  (delete_documents_version_filter storeAB ["a"] (by decide)).1
    (mkDocPoint metaA1) (by decide) (by decide)

end Semtools
